import Mathlib

/-
Shallow embedding of `src/helper_func/graph_util.py` (the graph relational
algebra core of the repository) and proofs about it.

Modelling conventions, used uniformly below:
* A Python dictionary read `d[k]` raises `KeyError` on a missing key; every
  operation that performs such a read therefore returns `Option`, with `none`
  standing for the raised lookup error.  A read `d.get(k, dflt)` is modelled
  with `Option.getD`.
* Node and edge identifiers in the JSON graphs are integers or strings, so
  they are modelled by the sum type `Val`.
* A Python `dict` preserves insertion order and overwrites values in place;
  ordered dictionaries are modelled as association lists in which updating an
  existing key keeps its position and inserting a new key appends it, and
  point lookups built by successive assignment are modelled as functions
  `Val → Option _` updated left to right (so later writes win, exactly the
  `last-write-wins` behaviour of the source).
* A Python `set` is modelled as a `Finset`.
-/

namespace GraphUtil

/-- Identifiers appearing in the graph documents: integers or strings. -/
inductive Val where
  | i : Int → Val
  | s : String → Val
deriving DecidableEq

/-- The `properties` dictionary of an edge; the code only ever reads its
`weight` key (with default 1), so only that key is modelled. -/
structure Props where
  weight : Option Int
deriving DecidableEq

/-- An edge dictionary.  Every field is optional, mirroring the open Python
dict: a `none` field is a key that is absent from the dictionary. -/
structure Edge where
  source : Option Val
  target : Option Val
  label : Option String
  labels : Option (List String)
  properties : Option Props
deriving DecidableEq

/-- `edge.get('properties', {}).get('weight', 1)` from `compose`. -/
def getWeight (e : Edge) : Int :=
  match e.properties with
  | some p => p.weight.getD 1
  | none => 1

/-- `invert(edgeList)` (graph_util.py lines 44-62): swap `source` and
`target`, replace `label` by `"inv_" + edge.get('label', 'edge')`, keep all
other keys of the edge unchanged (`{**edge, ...}`).  Reading `edge['target']`
or `edge['source']` on an edge missing that key raises `KeyError` (`none`). -/
def invert : List Edge → Option (List Edge)
  | [] => some []
  | e :: rest => do
      let t ← e.target
      let s ← e.source
      let r ← invert rest
      pure ({ e with
                source := some t
                target := some s
                label := some ("inv_" ++ e.label.getD "edge") } :: r)

/-- The loop `for edge in edgeList1: source_mapping[edge['target']] =
edge['source']` of `find_paths`: successive assignments into a dict, so a
later edge with the same target overwrites an earlier one. -/
def buildTargetToSource : List Edge → (Val → Option Val) → Option (Val → Option Val)
  | [], m => some m
  | e :: rest, m => do
      let t ← e.target
      let s ← e.source
      buildTargetToSource rest (fun k => if k = t then some s else m k)

/-- The second loop of `find_paths`: for each edge of `edgeList2` whose
`source` is a key of the mapping, add the path triple to the set.  Note that
`edge['target']` is only read when the source is found in the mapping, as in
the Python code. -/
def findPathsGo (m : Val → Option Val) :
    List Edge → Finset (Val × Val × Val) → Option (Finset (Val × Val × Val))
  | [], acc => some acc
  | e :: rest, acc => do
      let s ← e.source
      match m s with
      | some src1 => do
          let t ← e.target
          findPathsGo m rest (insert (src1, s, t) acc)
      | none => findPathsGo m rest acc

/-- `find_paths(edgeList1, edgeList2)` (graph_util.py lines 65-92). -/
def find_paths (l1 l2 : List Edge) : Option (Finset (Val × Val × Val)) := do
  let m ← buildTargetToSource l1 (fun _ => none)
  findPathsGo m l2 ∅

/-- One value of the lookup dictionary built from `l2` in `compose`:
`{'target': ..., 'label': edge.get('label', 'edge1'), 'weight':
edge.get('properties', {}).get('weight', 1)}`. -/
structure MapEntry where
  target : Val
  label : String
  weight : Int
deriving DecidableEq

/-- The dict comprehension `{edge['source']: {...} for edge in l2}` of
`compose`: built left to right, so for duplicate sources the last edge in
iteration order wins. -/
def buildMapping : List Edge → (Val → Option MapEntry) → Option (Val → Option MapEntry)
  | [], m => some m
  | e :: rest, m => do
      let s ← e.source
      let t ← e.target
      buildMapping rest
        (fun k => if k = s then some ⟨t, e.label.getD "edge1", getWeight e⟩ else m k)

/-- Python `newlabel or dflt` as used in `compose`: `None` and the empty
string are falsy, any other string is returned as is. -/
def pyOrStr (nl : Option String) (dflt : String) : String :=
  match nl with
  | some s => if s = "" then dflt else s
  | none => dflt

/-- Keys of the `result` dictionary of `compose`: `(s1, mappingEntry['target'])`. -/
abbrev RKey := Val × Val

/-- `result[key]['properties']['weight'] += newWeight` on the first entry with
the given key.  Entries created by `composeGo` always carry
`properties = {'weight': w}`, so the `getD` defaults are never taken (see the
invariant `resOk` below). -/
def bumpWeight : List (RKey × Edge) → RKey → Int → List (RKey × Edge)
  | [], _, _ => []
  | (k, ed) :: rest, key, w =>
      if k = key then
        (k, { ed with
                properties := some ⟨some ((ed.properties.getD ⟨none⟩).weight.getD 1 + w)⟩ }) :: rest
      else
        (k, ed) :: bumpWeight rest key w

/-- The main loop of `compose` over `l1`, carried out on the insertion-ordered
`result` dictionary (modelled as an association list): for each edge of `l1`
whose target is a key of the lookup, either create the composed edge or
accumulate its weight into the existing entry. -/
def composeGo (mapping : Val → Option MapEntry) (nl : Option String) :
    List Edge → List (RKey × Edge) → Option (List (RKey × Edge))
  | [], res => some res
  | e :: rest, res => do
      let s1 ← e.source
      let t1 ← e.target
      match mapping t1 with
      | none => composeGo mapping nl rest res
      | some m =>
          let w := m.weight * getWeight e
          let key : RKey := (s1, m.target)
          if res.any (fun p => p.1 == key) then
            composeGo mapping nl rest (bumpWeight res key w)
          else
            composeGo mapping nl rest (res ++ [(key,
              { source := some s1
                target := some m.target
                label := some (pyOrStr nl ((e.label.getD "edge2") ++ "-" ++ m.label))
                labels := none
                properties := some ⟨some w⟩ })])

/-- `compose(l1, l2, newlabel=None)` (graph_util.py lines 95-141);
`list(result.values())` is the value column of the association list. -/
def compose (l1 l2 : List Edge) (newlabel : Option String) : Option (List Edge) := do
  let mapping ← buildMapping l2 (fun _ => none)
  let res ← composeGo mapping newlabel l1 []
  pure (res.map (fun p => p.2))

/-- `lift(rel1, rel2, newlabel=None)` (graph_util.py lines 220-235). -/
def lift (rel1 rel2 : List Edge) (newlabel : Option String) : Option (List Edge) := do
  let c ← compose rel1 rel2 none
  let inv ← invert rel1
  compose c inv newlabel

/-- A node's data dictionary; the code reads only `id` and `labels`. -/
structure NodeData where
  id : Option Val
  labels : Option (List String)
deriving DecidableEq

/-- The `{'data': ...}` wrapper of a node in the raw graph document. -/
structure NodeWrap where
  data : NodeData
deriving DecidableEq

/-- The `{'data': ...}` wrapper of an edge in the raw graph document. -/
structure EdgeWrap where
  data : Edge
deriving DecidableEq

/-- `graph['elements']` of the raw graph document. -/
structure Elements where
  nodes : List NodeWrap
  edges : List EdgeWrap
deriving DecidableEq

/-- A raw graph document `{'elements': {'nodes': [...], 'edges': [...]}}`. -/
structure GraphDoc where
  elements : Elements
deriving DecidableEq

/-- Assignment `d[k] = v` into an insertion-ordered dict of nodes: an existing
key keeps its position, a new key is appended. -/
def dictInsert (m : List (Val × NodeData)) (k : Val) (v : NodeData) :
    List (Val × NodeData) :=
  if m.any (fun p => p.1 == k) then
    m.map (fun p => if p.1 = k then (k, v) else p)
  else
    m ++ [(k, v)]

/-- Ordered-dict lookup: `d[k]` yields the value of the first (unique) entry
with key `k`, `none` when the key is absent (a `KeyError` for strict reads). -/
def dictGet (m : List (Val × NodeData)) (k : Val) : Option NodeData :=
  (m.find? (fun p => p.1 == k)).map (fun p => p.2)

/-- The comprehension `{node['data']['id']: node['data'] for node in
graph['elements']['nodes']}` of `transform_graph`. -/
def buildNodesMap : List NodeWrap → List (Val × NodeData) → Option (List (Val × NodeData))
  | [], acc => some acc
  | n :: rest, acc => do
      let i ← n.data.id
      buildNodesMap rest (dictInsert acc i n.data)

/-- `if label not in edges: edges[label] = []` followed by
`edges[label].append(edge)` in `transform_graph`: append the edge to its
label's group, creating the group at the end of the dict if new. -/
def groupInsert (m : List (String × List Edge)) (l : String) (e : Edge) :
    List (String × List Edge) :=
  if m.any (fun p => p.1 == l) then
    m.map (fun p => if p.1 = l then (p.1, p.2 ++ [e]) else p)
  else
    m ++ [(l, [e])]

/-- The edge loop of `transform_graph`.  The Python loop mutates each edge
lacking a `label` in place (writing the synthesized label back into the input
edge object); state passing makes this explicit: the second accumulator (and
the second component of the result) is the post-state of the input edge-data
list after those in-place writes.  An edge with neither `label` nor `labels`
raises `KeyError` (`none`). -/
def transformEdges : List EdgeWrap → List (String × List Edge) → List Edge →
    Option (List (String × List Edge) × List Edge)
  | [], acc, post => some (acc, post)
  | w :: rest, acc, post =>
      match w.data.label with
      | some l => transformEdges rest (groupInsert acc l w.data) (post ++ [w.data])
      | none =>
          match w.data.labels with
          | some ls =>
              let l := String.intercalate "," ls
              let e' := { w.data with label := some l }
              transformEdges rest (groupInsert acc l e') (post ++ [e'])
          | none => none

/-- `transform_graph(graph)` (graph_util.py lines 1-27).  Returns the nodes
dict, the edges-by-label dict, and additionally the post-state of the input
edge-data list, which records the documented in-place label mutation. -/
def transform_graph (g : GraphDoc) :
    Option (List (Val × NodeData) × List (String × List Edge) × List Edge) := do
  let nodes ← buildNodesMap g.elements.nodes []
  let p ← transformEdges g.elements.edges [] []
  pure (nodes, p.1, p.2)

/-- `get_edge_node_labels(edge, nodes)` (graph_util.py lines 164-181).  Note
that the node lookups use `nodes.get(..., {})` with a default, so a node id
absent from the node map yields the empty dict (hence no labels), not an
error; only the strict reads `edge['source']` and `edge['target']` can raise. -/
def get_edge_node_labels (edge : Edge) (nodes : List (Val × NodeData)) :
    Option (List (String × String)) := do
  let s ← edge.source
  let t ← edge.target
  let srcLabels := ((dictGet nodes s).getD ⟨none, none⟩).labels.getD []
  let tgtLabels := ((dictGet nodes t).getD ⟨none, none⟩).labels.getD []
  pure (srcLabels.flatMap (fun a => tgtLabels.map (fun b => (a, b))))

/-- The per-edge condition of `get_edges_with_labels`:
`label in nodes[edge['source']].get('labels', []) and label in
nodes[edge['target']].get('labels', [])`.  The node lookups are strict
(`nodes[...]`), and the `and` short-circuits, so the target node is only
looked up when the label was found on the source node. -/
def edgeLabelCond (nodes : List (Val × NodeData)) (lab : String) (e : Edge) :
    Option Bool := do
  let s ← e.source
  let n1 ← dictGet nodes s
  if lab ∈ n1.labels.getD [] then do
    let t ← e.target
    let n2 ← dictGet nodes t
    pure (decide (lab ∈ n2.labels.getD []))
  else
    pure false

/-- The list comprehension of `get_edges_with_labels`, evaluated left to
right; a raised lookup error anywhere aborts the whole comprehension. -/
def edgesWithLabelsGo (nodes : List (Val × NodeData)) (lab : String) :
    List Edge → Option (List Edge)
  | [] => some []
  | e :: rest => do
      let b ← edgeLabelCond nodes lab e
      let r ← edgesWithLabelsGo nodes lab rest
      pure (if b then e :: r else r)

/-- `get_edges_with_labels(nodes, edge_list, label)` (graph_util.py 259-275). -/
def get_edges_with_labels (nodes : List (Val × NodeData)) (edgeList : List Edge)
    (lab : String) : Option (List Edge) :=
  edgesWithLabelsGo nodes lab edgeList

/-- `filter_objects_by_labels(data, labels)` (graph_util.py lines 238-256).
The read `object['labels']` is strict: an entry without a `labels` key raises
`KeyError` even before the (possibly empty) label list is consulted. -/
def filter_objects_by_labels : List (Val × NodeData) → List String →
    Option (List (Val × NodeData))
  | [], _ => some []
  | (k, obj) :: rest, labels => do
      let ls ← obj.labels
      let r ← filter_objects_by_labels rest labels
      pure (if ls.any (fun l => labels.contains l) then (k, obj) :: r else r)

/-- The (source, target) key produced by an `l1` edge under the `l2` lookup
`mapping` in `compose`, when the edge has both ids and its target is a key of
the lookup. -/
def producedKey (mapping : Val → Option MapEntry) (e : Edge) : Option RKey :=
  match e.source, e.target with
  | some s, some t => (mapping t).map (fun m => (s, m.target))
  | _, _ => none

/-- The weight contribution of a single `l1` edge to the composed edge with
key `key`: the product of the looked-up `l2` weight and the edge's own weight
when the edge produces `key`, and `0` otherwise. -/
def contrib (mapping : Val → Option MapEntry) (key : RKey) (e : Edge) : Int :=
  match e.source, e.target with
  | some s, some t =>
      match mapping t with
      | some m => if (s, m.target) = key then m.weight * getWeight e else 0
      | none => 0
  | _, _ => 0

/-- Keys in order of first occurrence: `firstOcc ks acc` appends to `acc`
each key of `ks` not already present, left to right. -/
def firstOcc : List RKey → List RKey → List RKey
  | [], acc => acc
  | k :: rest, acc =>
      if acc.contains k then firstOcc rest acc else firstOcc rest (acc ++ [k])

/-- Invariant of one entry of the `result` association list of `compose`,
relative to the list `processed` of already handled `l1` edges: the stored
edge mirrors its key, its label was fixed by the first `l1` edge that
produced the key, and its weight is the accumulated sum of contributions. -/
def entryOk (mapping : Val → Option MapEntry) (nl : Option String)
    (processed : List Edge) (p : RKey × Edge) : Prop :=
  p.2.source = some p.1.1 ∧ p.2.target = some p.1.2 ∧ p.2.labels = none ∧
  (∃ e1 t m, processed.find? (fun e => producedKey mapping e == some p.1) = some e1 ∧
    e1.source = some p.1.1 ∧ e1.target = some t ∧ mapping t = some m ∧
    m.target = p.1.2 ∧
    p.2.label = some (pyOrStr nl ((e1.label.getD "edge2") ++ "-" ++ m.label))) ∧
  p.2.properties = some ⟨some ((processed.map (contrib mapping p.1)).sum)⟩

/-- Full invariant of the `result` association list of `compose` after
processing `processed`: the key column lists the produced keys in
first-occurrence order, and every entry satisfies `entryOk`. -/
def resOk (mapping : Val → Option MapEntry) (nl : Option String)
    (processed : List Edge) (res : List (RKey × Edge)) : Prop :=
  res.map Prod.fst = firstOcc (processed.filterMap (producedKey mapping)) [] ∧
  ∀ p ∈ res, entryOk mapping nl processed p

/-- Written from the words of the specification (claim C1), not from the
source: the sum, over all pairs of an `l1` edge and an `l2` edge whose ids
match (`l1.target` equal to `l2.source`) and which produce the given
(source, target) pair, of the product of the two hops' weights (each read
from `properties.weight` with default 1). -/
def specAllPairsSum (l1 l2 : List Edge) (st : RKey) : Int :=
  (l1.map (fun e1 =>
    (l2.map (fun e2 =>
      if e1.target ≠ none ∧ e1.target = e2.source ∧ e1.source = some st.1 ∧
          e2.target = some st.2
      then getWeight e1 * getWeight e2 else 0)).sum)).sum

/-- The path triple contributed by an `edgeList2` edge under the
target-to-source mapping `m` in `find_paths`, when its source is a key of
`m`. -/
def pathTriple (m : Val → Option Val) (e : Edge) : Option (Val × Val × Val) :=
  e.source.bind (fun s => (m s).bind (fun s1 => e.target.map (fun t => (s1, s, t))))

/-- The per-edge effect of `transform_graph` on an edge's data dict: keep it
unchanged when it has a `label`, otherwise write the comma-join of its
`labels` into it (`KeyError`, i.e. `none`, when both keys are missing). -/
def normEdge (e : Edge) : Option Edge :=
  match e.label with
  | some _ => some e
  | none => e.labels.map (fun ls => { e with label := some (String.intercalate "," ls) })

/-- The edge `{"source": 1, "target": 2, "label": "r", "properties":
{"weight": 2}}` of the specification's `compose` example. -/
def exL1 : List Edge := [⟨some (Val.i 1), some (Val.i 2), some "r", none, some ⟨some 2⟩⟩]

/-- The edge `{"source": 2, "target": 3, "label": "s", "properties":
{"weight": 3}}` of the specification's `compose` example. -/
def exL2 : List Edge := [⟨some (Val.i 2), some (Val.i 3), some "s", none, some ⟨some 3⟩⟩]

/-- The lookup dictionary `compose` builds from `exL2`. -/
def exMap : Val → Option MapEntry :=
  fun k => if k = Val.i 2 then some ⟨Val.i 3, "s", 3⟩ else none

/-- The composed edge of the specification's `compose` example. -/
def exOut : Edge := ⟨some (Val.i 1), some (Val.i 3), some "r-s", none, some ⟨some 6⟩⟩

/-- An `l1` with a single edge 1 → 2 and no weight. -/
def c1dupL1 : List Edge := [⟨some (Val.i 1), some (Val.i 2), some "r", none, none⟩]

/-- An `l2` with two edges sharing source 2 (weights 5 and 11): in the lookup
built by `compose` the second one silently overwrites the first. -/
def c1dupL2 : List Edge :=
  [⟨some (Val.i 2), some (Val.i 3), some "s", none, some ⟨some 5⟩⟩,
   ⟨some (Val.i 2), some (Val.i 3), some "u", none, some ⟨some 11⟩⟩]

/-- `rel1` of the `lift` witness: a single edge 1 → 2 labelled "a". -/
def liftR1 : List Edge := [⟨some (Val.i 1), some (Val.i 2), some "a", none, none⟩]

/-- `rel2` of the `lift` witness: a single self-loop 2 → 2 labelled "b". -/
def liftR2 : List Edge := [⟨some (Val.i 2), some (Val.i 2), some "b", none, none⟩]

/-- The single edge that `lift liftR1 liftR2 none` produces. -/
def liftOut : Edge :=
  ⟨some (Val.i 1), some (Val.i 1), some "a-b-inv_a", none, some ⟨some 1⟩⟩

/-- `edgeList2` of the `find_paths` witness: two edges 2 → 3 producing the
same path triple. -/
def fpL2 : List Edge :=
  [⟨some (Val.i 2), some (Val.i 3), some "s", none, none⟩,
   ⟨some (Val.i 2), some (Val.i 3), some "u", none, none⟩]

/-- The target-to-source mapping `find_paths` builds from `exL1`. -/
def fpMap : Val → Option Val := fun k => if k = Val.i 2 then some (Val.i 1) else none

/-- The raw graph document of the specification's `transform_graph` example:
one node "a" and one edge a → a with `labels` ["x", "y"] and no `label`. -/
def exGDoc : GraphDoc :=
  ⟨⟨[⟨⟨some (Val.s "a"), none⟩⟩],
    [⟨⟨some (Val.s "a"), some (Val.s "a"), none, some ["x", "y"], none⟩⟩]⟩⟩

/-- The example edge after `transform_graph` wrote the synthesized label
"x,y" into it. -/
def exGEdge : Edge := ⟨some (Val.s "a"), some (Val.s "a"), some "x,y", some ["x", "y"], none⟩

theorem mem_firstOcc (ks : List RKey) : ∀ (acc : List RKey) (k : RKey),
    k ∈ firstOcc ks acc ↔ k ∈ acc ∨ k ∈ ks := by
  induction ks with
  | nil => intro acc k; simp [firstOcc]
  | cons a rest ih =>
      intro acc k
      simp only [firstOcc]
      by_cases h : acc.contains a = true
      · rw [if_pos h, ih]
        have ha : a ∈ acc := by simpa using h
        simp only [List.mem_cons]
        constructor
        · rintro (hk | hk)
          · exact Or.inl hk
          · exact Or.inr (Or.inr hk)
        · rintro (hk | hk | hk)
          · exact Or.inl hk
          · exact Or.inl (hk ▸ ha)
          · exact Or.inr hk
      · rw [if_neg h, ih]
        simp only [List.mem_append, List.mem_singleton, List.mem_cons]
        tauto

theorem nodup_firstOcc (ks : List RKey) : ∀ acc : List RKey,
    acc.Nodup → (firstOcc ks acc).Nodup := by
  induction ks with
  | nil => intro acc h; simpa [firstOcc] using h
  | cons a rest ih =>
      intro acc h
      simp only [firstOcc]
      by_cases hc : acc.contains a = true
      · rw [if_pos hc]; exact ih acc h
      · rw [if_neg hc]
        apply ih
        have ha : a ∉ acc := by simpa using hc
        simp [List.nodup_append, h, ha]

theorem firstOcc_append_single (ks : List RKey) : ∀ (acc : List RKey) (k : RKey),
    firstOcc (ks ++ [k]) acc =
      if k ∈ firstOcc ks acc then firstOcc ks acc else firstOcc ks acc ++ [k] := by
  induction ks with
  | nil =>
      intro acc k
      simp only [List.nil_append, firstOcc]
      by_cases h : acc.contains k = true
      · rw [if_pos h, if_pos (by simpa using h)]
      · rw [if_neg h, if_neg (by simpa using h)]
  | cons a rest ih =>
      intro acc k
      simp only [List.cons_append, firstOcc]
      by_cases h : acc.contains a = true
      · rw [if_pos h, if_pos h]; exact ih acc k
      · rw [if_neg h, if_neg h]; exact ih (acc ++ [a]) k

theorem bumpWeight_keys (key : RKey) (w : Int) : ∀ res : List (RKey × Edge),
    (bumpWeight res key w).map Prod.fst = res.map Prod.fst := by
  intro res
  induction res with
  | nil => rfl
  | cons p rest ih =>
      obtain ⟨k, ed⟩ := p
      simp only [bumpWeight]
      by_cases h : k = key
      · rw [if_pos h]; simp
      · rw [if_neg h]; simp [ih]

theorem bumpWeight_mem (key : RKey) (w : Int) : ∀ res : List (RKey × Edge),
    (res.map Prod.fst).Nodup → ∀ p' ∈ bumpWeight res key w,
    (p' ∈ res ∧ p'.1 ≠ key) ∨
    (∃ ed, (key, ed) ∈ res ∧
      p' = (key, { ed with
        properties := some ⟨some ((ed.properties.getD ⟨none⟩).weight.getD 1 + w)⟩ })) := by
  intro res
  induction res with
  | nil => intro _ p' hp; simp [bumpWeight] at hp
  | cons q rest ih =>
      obtain ⟨k, ed⟩ := q
      intro hnd p' hp
      have hnd' : (rest.map Prod.fst).Nodup :=
        (List.nodup_cons.mp (by simpa using hnd)).2
      have hknotin : k ∉ rest.map Prod.fst :=
        (List.nodup_cons.mp (by simpa using hnd)).1
      simp only [bumpWeight] at hp
      by_cases h : k = key
      · subst h
        rw [if_pos rfl] at hp
        rcases List.mem_cons.mp hp with rfl | hp2
        · exact Or.inr ⟨ed, List.mem_cons_self _ _, rfl⟩
        · have hk1 : p'.1 ∈ rest.map Prod.fst := List.mem_map_of_mem _ hp2
          exact Or.inl ⟨List.mem_cons_of_mem _ hp2, fun he => hknotin (he ▸ hk1)⟩
      · rw [if_neg h] at hp
        rcases List.mem_cons.mp hp with rfl | hp2
        · exact Or.inl ⟨List.mem_cons_self _ _, h⟩
        · rcases ih hnd' p' hp2 with h1 | ⟨ed2, hm, he⟩
          · exact Or.inl ⟨List.mem_cons_of_mem _ h1.1, h1.2⟩
          · exact Or.inr ⟨ed2, List.mem_cons_of_mem _ hm, he⟩

theorem producedKey_eq_some (mapping : Val → Option MapEntry) (e : Edge) (key : RKey) :
    producedKey mapping e = some key ↔
    ∃ s t m, e.source = some s ∧ e.target = some t ∧ mapping t = some m ∧
      key = (s, m.target) := by
  cases hs : e.source with
  | none => simp [producedKey, hs]
  | some s =>
      cases ht : e.target with
      | none => simp [producedKey, hs, ht]
      | some t =>
          cases hm : mapping t with
          | none => simp [producedKey, hs, ht, hm]
          | some m => simp [producedKey, hs, ht, hm, eq_comm]

theorem contrib_eq_zero (mapping : Val → Option MapEntry) (key : RKey) (e : Edge)
    (h : producedKey mapping e ≠ some key) : contrib mapping key e = 0 := by
  cases hs : e.source with
  | none => simp [contrib, hs]
  | some s =>
      cases ht : e.target with
      | none => simp [contrib, hs, ht]
      | some t =>
          cases hm : mapping t with
          | none => simp [contrib, hs, ht, hm]
          | some m =>
              have hne : (s, m.target) ≠ key := by
                intro he
                exact h ((producedKey_eq_some mapping e key).mpr ⟨s, t, m, hs, ht, hm, he.symm⟩)
              simp [contrib, hs, ht, hm, hne]

theorem contrib_of_produced (mapping : Val → Option MapEntry) (e : Edge) (s t : Val)
    (m : MapEntry) (hs : e.source = some s) (ht : e.target = some t)
    (hm : mapping t = some m) :
    contrib mapping (s, m.target) e = m.weight * getWeight e := by
  simp [contrib, hs, ht, hm]

theorem entryOk_extend (mapping : Val → Option MapEntry) (nl : Option String)
    (processed : List Edge) (e : Edge) (p : RKey × Edge)
    (hok : entryOk mapping nl processed p)
    (hne : producedKey mapping e ≠ some p.1) :
    entryOk mapping nl (processed ++ [e]) p := by
  obtain ⟨h1, h2, h3, ⟨e1, t, m, hf, he1, he2, hm, hmt, hlab⟩, h5⟩ := hok
  refine ⟨h1, h2, h3, ⟨e1, t, m, ?_, he1, he2, hm, hmt, hlab⟩, ?_⟩
  · rw [List.find?_append, hf]; rfl
  · rw [List.map_append, List.sum_append]
    simp [h5, contrib_eq_zero mapping p.1 e hne]

theorem resOk_nodup_keys (mapping : Val → Option MapEntry) (nl : Option String)
    (processed : List Edge) (res : List (RKey × Edge))
    (hok : resOk mapping nl processed res) : (res.map Prod.fst).Nodup := by
  rw [hok.1]; exact nodup_firstOcc _ _ List.nodup_nil

theorem resOk_bump (mapping : Val → Option MapEntry) (nl : Option String)
    (processed : List Edge) (res : List (RKey × Edge)) (e : Edge) (s1 t1 : Val)
    (m : MapEntry) (hok : resOk mapping nl processed res)
    (hs : e.source = some s1) (ht : e.target = some t1) (hm : mapping t1 = some m)
    (hmem : (s1, m.target) ∈ res.map Prod.fst) :
    resOk mapping nl (processed ++ [e])
      (bumpWeight res (s1, m.target) (m.weight * getWeight e)) := by
  obtain ⟨hkeys, hent⟩ := hok
  have hprod : producedKey mapping e = some (s1, m.target) :=
    (producedKey_eq_some mapping e _).mpr ⟨s1, t1, m, hs, ht, hm, rfl⟩
  have hnd : (res.map Prod.fst).Nodup := resOk_nodup_keys _ _ _ _ ⟨hkeys, hent⟩
  have hfm : List.filterMap (producedKey mapping) [e] = [(s1, m.target)] := by
    simp [hprod]
  constructor
  · rw [bumpWeight_keys, hkeys, List.filterMap_append, hfm, firstOcc_append_single,
      if_pos (hkeys ▸ hmem)]
  · intro p hp
    rcases bumpWeight_mem _ _ res hnd p hp with ⟨hpres, hpne⟩ | ⟨ed, hmem2, rfl⟩
    · refine entryOk_extend _ _ _ _ _ (hent p hpres) ?_
      rw [hprod]
      intro hcontra
      exact hpne (Option.some.inj hcontra).symm
    · obtain ⟨h1, h2, h3, ⟨e1, t, m', hf, he1, he2, hm', hmt, hlab⟩, h5⟩ :=
        hent _ hmem2
      refine ⟨h1, h2, h3, ⟨e1, t, m', ?_, he1, he2, hm', hmt, hlab⟩, ?_⟩
      · rw [List.find?_append, hf]; rfl
      · rw [List.map_append, List.sum_append]
        rw [h5]
        have hcb : contrib mapping (s1, m.target) e = m.weight * getWeight e :=
          contrib_of_produced mapping e s1 t1 m hs ht hm
        simp [hcb]

theorem resOk_append (mapping : Val → Option MapEntry) (nl : Option String)
    (processed : List Edge) (res : List (RKey × Edge)) (e : Edge) (s1 t1 : Val)
    (m : MapEntry) (hok : resOk mapping nl processed res)
    (hs : e.source = some s1) (ht : e.target = some t1) (hm : mapping t1 = some m)
    (hnotmem : (s1, m.target) ∉ res.map Prod.fst) :
    resOk mapping nl (processed ++ [e]) (res ++ [((s1, m.target),
      { source := some s1
        target := some m.target
        label := some (pyOrStr nl ((e.label.getD "edge2") ++ "-" ++ m.label))
        labels := none
        properties := some ⟨some (m.weight * getWeight e)⟩ })]) := by
  obtain ⟨hkeys, hent⟩ := hok
  have hprod : producedKey mapping e = some (s1, m.target) :=
    (producedKey_eq_some mapping e _).mpr ⟨s1, t1, m, hs, ht, hm, rfl⟩
  have hfm : List.filterMap (producedKey mapping) [e] = [(s1, m.target)] := by
    simp [hprod]
  have hnp : ∀ x ∈ processed, producedKey mapping x ≠ some (s1, m.target) := by
    intro x hx hpx
    apply hnotmem
    rw [hkeys, mem_firstOcc]
    exact Or.inr (List.mem_filterMap.mpr ⟨x, hx, hpx⟩)
  constructor
  · rw [List.map_append, hkeys, List.filterMap_append, hfm, firstOcc_append_single,
      if_neg (fun hmemF => hnotmem (hkeys ▸ hmemF))]
    rfl
  · intro p hp
    rcases List.mem_append.mp hp with hpres | hpnew
    · refine entryOk_extend _ _ _ _ _ (hent p hpres) ?_
      rw [hprod]
      intro hcontra
      apply hnotmem
      rw [Option.some.inj hcontra]
      exact List.mem_map_of_mem _ hpres
    · have hpeq := List.mem_singleton.mp hpnew
      subst hpeq
      have hfnone : processed.find?
          (fun x => producedKey mapping x == some (s1, m.target)) = none := by
        rw [List.find?_eq_none]
        intro x hx
        simp only [beq_iff_eq]
        exact fun hpx => hnp x hx hpx
      refine ⟨rfl, rfl, rfl, ⟨e, t1, m, ?_, hs, ht, hm, rfl, rfl⟩, ?_⟩
      · rw [List.find?_append, hfnone]
        simp [hprod]
      · have hzero : ((processed.map (contrib mapping (s1, m.target))).sum) = 0 := by
          apply List.sum_eq_zero
          intro x hx
          rcases List.mem_map.mp hx with ⟨y, hy, rfl⟩
          exact contrib_eq_zero mapping _ y (hnp y hy)
        rw [List.map_append, List.sum_append, hzero]
        have hcb : contrib mapping (s1, m.target) e = m.weight * getWeight e :=
          contrib_of_produced mapping e s1 t1 m hs ht hm
        simp [hcb]

theorem composeGo_ok (mapping : Val → Option MapEntry) (nl : Option String) :
    ∀ (l processed : List Edge) (res res' : List (RKey × Edge)),
    resOk mapping nl processed res →
    composeGo mapping nl l res = some res' →
    resOk mapping nl (processed ++ l) res' := by
  intro l
  induction l with
  | nil =>
      intro processed res res' hok hc
      simp only [composeGo, Option.some.injEq] at hc
      subst hc
      simpa using hok
  | cons e rest ih =>
      intro processed res res' hok hc
      simp only [composeGo] at hc
      cases hs : e.source with
      | none => rw [hs] at hc; simp at hc
      | some s1 =>
          rw [hs] at hc
          simp only [Option.bind_eq_bind, Option.some_bind] at hc
          cases ht : e.target with
          | none => rw [ht] at hc; simp at hc
          | some t1 =>
              rw [ht] at hc
              simp only [Option.bind_eq_bind, Option.some_bind] at hc
              cases hm : mapping t1 with
              | none =>
                  rw [hm] at hc
                  have hok' : resOk mapping nl (processed ++ [e]) res := by
                    obtain ⟨hkeys, hent⟩ := hok
                    have hprod : producedKey mapping e = none := by
                      simp [producedKey, hs, ht, hm]
                    constructor
                    · rw [hkeys, List.filterMap_append]
                      simp [hprod]
                    · intro p hp
                      refine entryOk_extend _ _ _ _ _ (hent p hp) ?_
                      rw [hprod]
                      exact fun h => Option.noConfusion h
                  have hres := ih (processed ++ [e]) res res' hok' hc
                  simpa [List.append_assoc] using hres
              | some m =>
                  rw [hm] at hc
                  simp only [] at hc
                  by_cases hkey : res.any (fun p => p.1 == (s1, m.target)) = true
                  · rw [if_pos hkey] at hc
                    have hmem : (s1, m.target) ∈ res.map Prod.fst := by
                      rcases List.any_eq_true.mp hkey with ⟨p, hp, hpk⟩
                      rw [beq_iff_eq] at hpk
                      exact hpk ▸ List.mem_map_of_mem _ hp
                    have hok' := resOk_bump mapping nl processed res e s1 t1 m hok
                      hs ht hm hmem
                    have hres := ih (processed ++ [e]) _ res' hok' hc
                    simpa [List.append_assoc] using hres
                  · rw [if_neg hkey] at hc
                    have hnotmem : (s1, m.target) ∉ res.map Prod.fst := by
                      intro hmem
                      apply hkey
                      rcases List.mem_map.mp hmem with ⟨p, hp, hpk⟩
                      exact List.any_eq_true.mpr ⟨p, hp, beq_iff_eq.mpr hpk⟩
                    have hok' := resOk_append mapping nl processed res e s1 t1 m hok
                      hs ht hm hnotmem
                    have hres := ih (processed ++ [e]) _ res' hok' hc
                    simpa [List.append_assoc] using hres

theorem compose_eq_some (l1 l2 : List Edge) (nl : Option String) (out : List Edge)
    (hc : compose l1 l2 nl = some out) :
    ∃ mapping res, buildMapping l2 (fun _ => none) = some mapping ∧
      composeGo mapping nl l1 [] = some res ∧ out = res.map (fun p => p.2) ∧
      resOk mapping nl l1 res := by
  unfold compose at hc
  cases hb : buildMapping l2 (fun _ => none) with
  | none => rw [hb] at hc; simp at hc
  | some mapping =>
      rw [hb] at hc
      simp only [Option.bind_eq_bind, Option.some_bind] at hc
      cases hg : composeGo mapping nl l1 [] with
      | none => rw [hg] at hc; simp at hc
      | some res =>
          rw [hg] at hc
          simp only [Option.bind_eq_bind, Option.some_bind, Option.pure_def,
            Option.some.injEq] at hc
          have hbase : resOk mapping nl [] [] := by
            constructor
            · rfl
            · intro p hp
              simp at hp
          have hres := composeGo_ok mapping nl l1 [] [] res hbase hg
          exact ⟨mapping, res, rfl, hg, hc.symm, by simpa using hres⟩

theorem buildMapping_mem : ∀ (l2 : List Edge) (m0 mp : Val → Option MapEntry),
    buildMapping l2 m0 = some mp → ∀ k m, mp k = some m →
    m0 k = some m ∨ ∃ e ∈ l2, e.source = some k ∧ e.target = some m.target := by
  intro l2
  induction l2 with
  | nil =>
      intro m0 mp hb k m hk
      simp only [buildMapping, Option.some.injEq] at hb
      subst hb
      exact Or.inl hk
  | cons e rest ih =>
      intro m0 mp hb k m hk
      simp only [buildMapping] at hb
      cases hs : e.source with
      | none => rw [hs] at hb; simp at hb
      | some s =>
          rw [hs] at hb
          simp only [Option.bind_eq_bind, Option.some_bind] at hb
          cases ht : e.target with
          | none => rw [ht] at hb; simp at hb
          | some t =>
              rw [ht] at hb
              simp only [Option.bind_eq_bind, Option.some_bind] at hb
              rcases ih _ _ hb k m hk with h0 | ⟨e2, he2, hs2, ht2⟩
              · by_cases hks : k = s
                · subst hks
                  rw [if_pos rfl] at h0
                  obtain rfl := Option.some.inj h0
                  exact Or.inr ⟨e, List.mem_cons_self _ _, hs, ht⟩
                · rw [if_neg hks] at h0
                  exact Or.inl h0
              · exact Or.inr ⟨e2, List.mem_cons_of_mem _ he2, hs2, ht2⟩

theorem invert_forall2 : ∀ (L L' : List Edge), invert L = some L' →
    List.Forall₂ (fun e e' => ∃ s t, e.source = some s ∧ e.target = some t ∧
      e' = { e with
              source := some t
              target := some s
              label := some ("inv_" ++ e.label.getD "edge") }) L L' := by
  intro L
  induction L with
  | nil =>
      intro L' h
      simp only [invert, Option.some.injEq] at h
      subst h
      exact List.Forall₂.nil
  | cons e rest ih =>
      intro L' h
      simp only [invert] at h
      cases ht : e.target with
      | none => rw [ht] at h; simp at h
      | some t =>
          rw [ht] at h
          simp only [Option.bind_eq_bind, Option.some_bind] at h
          cases hs : e.source with
          | none => rw [hs] at h; simp at h
          | some s =>
              rw [hs] at h
              simp only [Option.bind_eq_bind, Option.some_bind] at h
              cases hr : invert rest with
              | none => rw [hr] at h; simp at h
              | some r =>
                  rw [hr] at h
                  simp only [Option.bind_eq_bind, Option.some_bind, Option.pure_def,
                    Option.some.injEq] at h
                  subst h
                  exact List.Forall₂.cons ⟨s, t, hs, ht, rfl⟩ (ih r hr)

theorem forall2_trans {α β γ : Type} {R : α → β → Prop} {S : β → γ → Prop}
    {T : α → γ → Prop} (hT : ∀ a b c, R a b → S b c → T a c) :
    ∀ {l1 : List α} {l2 : List β} {l3 : List γ},
      List.Forall₂ R l1 l2 → List.Forall₂ S l2 l3 → List.Forall₂ T l1 l3 := by
  intro l1
  induction l1 with
  | nil =>
      intro l2 l3 h1 h2
      cases h1
      cases h2
      exact List.Forall₂.nil
  | cons a rest ih =>
      intro l2 l3 h1 h2
      cases h1 with
      | cons hab h1' =>
          cases h2 with
          | cons hbc h2' => exact List.Forall₂.cons (hT _ _ _ hab hbc) (ih h1' h2')

theorem forall2_mem_right {α β : Type} {R : α → β → Prop} :
    ∀ {l : List α} {l' : List β}, List.Forall₂ R l l' → ∀ b ∈ l', ∃ a ∈ l, R a b := by
  intro l
  induction l with
  | nil =>
      intro l' h b hb
      cases h
      simp at hb
  | cons a rest ih =>
      intro l' h b hb
      cases h with
      | cons hab h' =>
          rcases List.mem_cons.mp hb with rfl | hb'
          · exact ⟨a, List.mem_cons_self _ _, hab⟩
          · rcases ih h' b hb' with ⟨x, hx, hxb⟩
            exact ⟨x, List.mem_cons_of_mem _ hx, hxb⟩

theorem invert_mem (L L' : List Edge) (h : invert L = some L') :
    ∀ e' ∈ L', ∃ e ∈ L, ∃ s t, e.source = some s ∧ e.target = some t ∧
      e' = { e with
              source := some t
              target := some s
              label := some ("inv_" ++ e.label.getD "edge") } := by
  intro e' he'
  rcases forall2_mem_right (invert_forall2 L L' h) e' he' with ⟨e, he, hR⟩
  exact ⟨e, he, hR⟩

theorem compose_mem_rel (l1 l2 : List Edge) (nl : Option String) (out : List Edge)
    (hc : compose l1 l2 nl = some out) :
    ∀ r ∈ out, (∃ e1 ∈ l1, ∃ v, e1.source = some v ∧ r.source = some v) ∧
      (∃ e2 ∈ l2, ∃ v, e2.target = some v ∧ r.target = some v) := by
  obtain ⟨mapping, res, hb', hg, hout, hok⟩ := compose_eq_some l1 l2 nl out hc
  subst hout
  intro r hr
  rcases List.mem_map.mp hr with ⟨p, hp, rfl⟩
  obtain ⟨h1, h2, _, ⟨e1, t, m, hf, he1, he2, hm, hmt, _⟩, _⟩ := hok.2 p hp
  constructor
  · exact ⟨e1, List.mem_of_find?_eq_some hf, p.1.1, he1, h1⟩
  · rcases buildMapping_mem l2 _ mapping hb' t m hm with h0 | ⟨e2, he2l, _, ht2⟩
    · simp at h0
    · refine ⟨e2, he2l, m.target, ht2, ?_⟩
      rw [hmt]
      exact h2

/-- Claim C1, counterexample: with two `l2` edges sharing source 2 (weights 5
and 11), `compose` keeps only the last one in the lookup, so the composed
edge (1, 3) gets weight 11, while the sum over all matching hop-pairs
producing (1, 3), as the claim words it, is 5 + 11 = 16. -/
theorem compose_allpairs_cex :
    compose c1dupL1 c1dupL2 none =
      some [⟨some (Val.i 1), some (Val.i 3), some "r-u", none, some ⟨some 11⟩⟩] ∧
    specAllPairsSum c1dupL1 c1dupL2 (Val.i 1, Val.i 3) = 16 ∧ (11 : Int) ≠ 16 :=
  ⟨by decide, by decide, by decide⟩

/-- Claim C1 (amended): every edge of `compose l1 l2` has weight equal to the
sum, over all `l1` edges, of that edge's contribution to the (source, target)
key, where each `l1` edge is matched against the lookup built from `l2` — in
which, for duplicate `l2` sources, the last edge in iteration order silently
wins — and each weight is read from `properties.weight` with default 1. -/
theorem compose_weight (l1 l2 : List Edge) (nl : Option String)
    (mapping : Val → Option MapEntry) (out : List Edge) (r : Edge) (s t : Val)
    (hb : buildMapping l2 (fun _ => none) = some mapping)
    (hc : compose l1 l2 nl = some out) (hr : r ∈ out)
    (hsrc : r.source = some s) (htgt : r.target = some t) :
    r.properties = some ⟨some ((l1.map (contrib mapping (s, t))).sum)⟩ := by
  obtain ⟨mapping', res, hb', hg, hout, hok⟩ := compose_eq_some l1 l2 nl out hc
  rw [hb'] at hb
  obtain rfl := Option.some.inj hb
  subst hout
  rcases List.mem_map.mp hr with ⟨p, hp, rfl⟩
  obtain ⟨h1, h2, _, _, h5⟩ := hok.2 p hp
  have hs1 : s = p.1.1 := by rw [h1] at hsrc; exact (Option.some.inj hsrc).symm
  have ht1 : t = p.1.2 := by rw [h2] at htgt; exact (Option.some.inj htgt).symm
  subst hs1
  subst ht1
  exact h5

/-- Witness for `compose_weight` at the specification's `compose` example. -/
theorem compose_weight_witness :
    exOut.properties = some ⟨some ((exL1.map (contrib exMap (Val.i 1, Val.i 3))).sum)⟩ :=
  compose_weight exL1 exL2 none exMap [exOut] exOut (Val.i 1) (Val.i 3) rfl
    (by decide) (by decide) (by decide) (by decide)

/-- Claim C2: the result of `compose` is in first-occurrence order of the
produced (source, target) keys over `l1`; each result edge's label is the one
fixed by the first `l1` edge that produced its key, and its weight is the
accumulated sum of all contributions to that key. -/
theorem compose_accumulate (l1 l2 : List Edge) (nl : Option String)
    (mapping : Val → Option MapEntry) (out : List Edge)
    (hb : buildMapping l2 (fun _ => none) = some mapping)
    (hc : compose l1 l2 nl = some out) :
    out.map (fun r => (r.source, r.target)) =
      (firstOcc (l1.filterMap (producedKey mapping)) []).map
        (fun k => (some k.1, some k.2)) ∧
    ∀ r ∈ out, ∀ k : RKey, r.source = some k.1 → r.target = some k.2 →
      ∀ e1, l1.find? (fun e => producedKey mapping e == some k) = some e1 →
      ∀ t m, e1.target = some t → mapping t = some m →
      r.label = some (pyOrStr nl ((e1.label.getD "edge2") ++ "-" ++ m.label)) ∧
      r.properties = some ⟨some ((l1.map (contrib mapping k)).sum)⟩ := by
  obtain ⟨mapping', res, hb', hg, hout, hok⟩ := compose_eq_some l1 l2 nl out hc
  rw [hb'] at hb
  obtain rfl := Option.some.inj hb
  subst hout
  constructor
  · rw [← hok.1, List.map_map, List.map_map]
    apply List.map_congr_left
    intro p hp
    obtain ⟨h1, h2, _, _, _⟩ := hok.2 p hp
    simp [Function.comp, h1, h2]
  · intro r hr k hks hkt e1 hfind t m ht hm
    rcases List.mem_map.mp hr with ⟨p, hp, rfl⟩
    obtain ⟨h1, h2, h3, ⟨e1', t', m', hf', he1', he2', hm', hmt', hlab'⟩, h5⟩ :=
      hok.2 p hp
    have hk1 : p.1.1 = k.1 := by rw [h1] at hks; exact Option.some.inj hks
    have hk2 : p.1.2 = k.2 := by rw [h2] at hkt; exact Option.some.inj hkt
    have hk : k = p.1 := Prod.ext hk1.symm hk2.symm
    subst hk
    rw [hf'] at hfind
    obtain rfl := Option.some.inj hfind
    rw [he2'] at ht
    obtain rfl := Option.some.inj ht
    rw [hm'] at hm
    obtain rfl := Option.some.inj hm
    exact ⟨hlab', h5⟩

/-- Witness for `compose_accumulate`: key order at the specification's
`compose` example. -/
theorem compose_accumulate_witness :
    ([exOut] : List Edge).map (fun r => (r.source, r.target)) =
      (firstOcc (exL1.filterMap (producedKey exMap)) []).map
        (fun k => (some k.1, some k.2)) :=
  (compose_accumulate exL1 exL2 none exMap [exOut] rfl (by decide)).1

/-- Claim C3, counterexample: `compose` with the provided `newlabel` equal to
the empty string does not label the composed edge with it; Python's
`newlabel or ...` treats the empty string as absent, so the concatenated
label "r-s" is used instead. -/
theorem compose_newlabel_cex :
    compose exL1 exL2 (some "") = some [exOut] ∧ exOut.label = some "r-s" ∧
    "r-s" ≠ "" :=
  ⟨by decide, by decide, by decide⟩

/-- Claim C3 (amended): every composed edge is labelled with `newlabel`
whenever it is provided and non-empty; when `newlabel` is absent or empty,
the label is the first producing `l1` edge's label (default "edge2") joined
by "-" to the looked-up `l2` label (default "edge1"). -/
theorem compose_label (l1 l2 : List Edge) (nl : Option String)
    (mapping : Val → Option MapEntry) (out : List Edge)
    (hb : buildMapping l2 (fun _ => none) = some mapping)
    (hc : compose l1 l2 nl = some out) :
    (∀ r ∈ out, ∀ s : String, nl = some s → s ≠ "" → r.label = some s) ∧
    (∀ r ∈ out, ∀ k : RKey, r.source = some k.1 → r.target = some k.2 →
      ∀ e1, l1.find? (fun e => producedKey mapping e == some k) = some e1 →
      ∀ t m, e1.target = some t → mapping t = some m → (nl = none ∨ nl = some "") →
      r.label = some ((e1.label.getD "edge2") ++ "-" ++ m.label)) := by
  obtain ⟨mapping', res, hb', hg, hout, hok⟩ := compose_eq_some l1 l2 nl out hc
  rw [hb'] at hb
  obtain rfl := Option.some.inj hb
  subst hout
  constructor
  · intro r hr s hnl hs
    rcases List.mem_map.mp hr with ⟨p, hp, rfl⟩
    obtain ⟨_, _, _, ⟨e1, t, m, _, _, _, _, _, hlab⟩, _⟩ := hok.2 p hp
    rw [hlab, hnl]
    simp [pyOrStr, hs]
  · intro r hr k hks hkt e1 hfind t m ht hm hnl
    rcases List.mem_map.mp hr with ⟨p, hp, rfl⟩
    obtain ⟨h1, h2, _, ⟨e1', t', m', hf', he1', he2', hm', hmt', hlab'⟩, _⟩ :=
      hok.2 p hp
    have hk1 : p.1.1 = k.1 := by rw [h1] at hks; exact Option.some.inj hks
    have hk2 : p.1.2 = k.2 := by rw [h2] at hkt; exact Option.some.inj hkt
    have hk : k = p.1 := Prod.ext hk1.symm hk2.symm
    subst hk
    rw [hf'] at hfind
    obtain rfl := Option.some.inj hfind
    rw [he2'] at ht
    obtain rfl := Option.some.inj ht
    rw [hm'] at hm
    obtain rfl := Option.some.inj hm
    rw [hlab']
    rcases hnl with rfl | rfl
    · rfl
    · rfl

/-- Witness for `compose_label` at the specification's `compose` example
(newlabel absent), together with the example itself. -/
theorem compose_label_witness :
    compose exL1 exL2 none = some [exOut] ∧ exOut.label = some "r-s" :=
  ⟨by decide,
    Eq.trans
      ((compose_label exL1 exL2 none exMap [exOut] rfl (by decide)).2 exOut
        (by decide) (Val.i 1, Val.i 3) (by decide) (by decide)
        ⟨some (Val.i 1), some (Val.i 2), some "r", none, some ⟨some 2⟩⟩ (by decide)
        (Val.i 2) ⟨Val.i 3, "s", 3⟩ (by decide) (by decide) (Or.inl rfl))
      (by decide)⟩

/-- Claim C4: `lift` is the double composition through the inverted first
relation, and every edge of its result has both its source id and its target
id drawn from the source ids of `rel1`. -/
theorem lift_spec (rel1 rel2 : List Edge) (nl : Option String) :
    lift rel1 rel2 nl = (compose rel1 rel2 none).bind (fun c =>
      (invert rel1).bind (fun inv => compose c inv nl)) ∧
    ∀ out r, lift rel1 rel2 nl = some out → r ∈ out →
      (∃ e1 ∈ rel1, e1.source = r.source) ∧ (∃ e2 ∈ rel1, e2.source = r.target) := by
  constructor
  · rfl
  · intro out r hl hr
    unfold lift at hl
    cases h1 : compose rel1 rel2 none with
    | none => rw [h1] at hl; simp at hl
    | some c =>
        rw [h1] at hl
        simp only [Option.bind_eq_bind, Option.some_bind] at hl
        cases h2 : invert rel1 with
        | none => rw [h2] at hl; simp at hl
        | some inv =>
            rw [h2] at hl
            simp only [Option.bind_eq_bind, Option.some_bind] at hl
            obtain ⟨⟨ec, hec, v, hecs, hrs⟩, ⟨ei, hei, v2, heit, hrt⟩⟩ :=
              compose_mem_rel c inv nl out hl r hr
            constructor
            · obtain ⟨⟨e1, he1, v1, he1s, hecs'⟩, _⟩ :=
                compose_mem_rel rel1 rel2 none c h1 ec hec
              refine ⟨e1, he1, ?_⟩
              rw [he1s, hrs]
              rw [hecs'] at hecs
              exact congrArg some (Option.some.inj hecs)
            · obtain ⟨e0, he0, s0, t0, hs0, ht0, rfl⟩ := invert_mem rel1 inv h2 ei hei
              refine ⟨e0, he0, ?_⟩
              rw [hs0, hrt]
              have hv2 : s0 = v2 := Option.some.inj heit
              rw [hv2]

/-- Witness for `lift_spec` on a concrete one-edge pair of relations. -/
theorem lift_spec_witness :
    lift liftR1 liftR2 none = some [liftOut] ∧
    ((∃ e1 ∈ liftR1, e1.source = liftOut.source) ∧
      (∃ e2 ∈ liftR1, e2.source = liftOut.target)) :=
  ⟨by decide,
    (lift_spec liftR1 liftR2 none).2 [liftOut] liftOut (by decide) (by decide)⟩

theorem string_ne_of_inv_inv (x : String) : "inv_inv_" ++ x ≠ x := by
  intro h
  have hl := congrArg String.length h
  rw [String.length_append] at hl
  have h8 : ("inv_inv_" : String).length = 8 := rfl
  omega

/-- Claim C6: inverting twice restores every edge's source/target pair, but
the label gains a double "inv_inv_" prefix (onto the original label, or onto
the default "edge" when the edge had none), so it never equals the original
label. -/
theorem invert_invert (L L1 L2 : List Edge)
    (h1 : invert L = some L1) (h2 : invert L1 = some L2) :
    List.Forall₂ (fun e e2 => e2.source = e.source ∧ e2.target = e.target ∧
      e2.label = some ("inv_inv_" ++ e.label.getD "edge") ∧ e2.label ≠ e.label)
      L L2 := by
  refine forall2_trans ?_ (invert_forall2 L L1 h1) (invert_forall2 L1 L2 h2)
  rintro e b e2 ⟨s, t, hs, ht, rfl⟩ ⟨s', t', hs', ht', rfl⟩
  obtain rfl := Option.some.inj hs'
  obtain rfl := Option.some.inj ht'
  have hcat : ("inv_" : String) ++ "inv_" = "inv_inv_" := by decide
  have hstr : ("inv_" : String) ++ ("inv_" ++ (e.label.getD "edge")) =
      "inv_inv_" ++ (e.label.getD "edge") := by
    rw [← String.append_assoc, hcat]
  have hlab2 : ({ e with
      source := some t
      target := some s
      label := some ("inv_" ++ e.label.getD "edge") } : Edge).label.getD "edge" =
      "inv_" ++ e.label.getD "edge" := rfl
  refine ⟨hs.symm, ht.symm, ?_, ?_⟩
  · exact congrArg some hstr
  · have hgoal : some ("inv_inv_" ++ e.label.getD "edge") ≠ e.label := by
      intro heq
      cases hel : e.label with
      | none => rw [hel] at heq; exact Option.noConfusion heq
      | some x =>
          rw [hel] at heq
          have hx := Option.some.inj heq
          exact string_ne_of_inv_inv x (by simpa using hx)
    intro heq
    exact hgoal ((congrArg some hstr).symm.trans heq)

/-- Witness for `invert_invert` on the one-edge list of the spec example. -/
theorem invert_invert_witness :
    List.Forall₂ (fun (e e2 : Edge) => e2.source = e.source ∧ e2.target = e.target ∧
      e2.label = some ("inv_inv_" ++ e.label.getD "edge") ∧ e2.label ≠ e.label)
      exL1 [⟨some (Val.i 1), some (Val.i 2), some "inv_inv_r", none, some ⟨some 2⟩⟩] :=
  invert_invert exL1
    [⟨some (Val.i 2), some (Val.i 1), some "inv_r", none, some ⟨some 2⟩⟩]
    [⟨some (Val.i 1), some (Val.i 2), some "inv_inv_r", none, some ⟨some 2⟩⟩]
    (by decide) (by decide)

theorem buildTS_lookup : ∀ (l : List Edge) (m0 m : Val → Option Val),
    buildTargetToSource l m0 = some m → ∀ k : Val,
    m k = ((l.reverse.find? (fun e => e.target == some k)).map Edge.source).getD
      (m0 k) := by
  intro l
  induction l with
  | nil =>
      intro m0 m h k
      simp only [buildTargetToSource, Option.some.injEq] at h
      subst h
      simp
  | cons e rest ih =>
      intro m0 m h k
      simp only [buildTargetToSource] at h
      cases ht : e.target with
      | none => rw [ht] at h; simp at h
      | some t =>
          rw [ht] at h
          simp only [Option.bind_eq_bind, Option.some_bind] at h
          cases hs : e.source with
          | none => rw [hs] at h; simp at h
          | some s =>
              rw [hs] at h
              simp only [Option.bind_eq_bind, Option.some_bind] at h
              have hrec := ih _ m h k
              rw [hrec, List.reverse_cons, List.find?_append]
              cases hf : rest.reverse.find? (fun x => x.target == some k) with
              | some e' => simp [Option.or]
              | none =>
                  simp only [Option.none_or]
                  by_cases hkt : k = t
                  · subst hkt
                    simp [List.find?, ht, hs]
                  · have hcond : (e.target == some k) = false := by
                      simp only [ht, beq_iff_eq, Option.some.injEq]
                      exact decide_eq_false (fun hc => hkt hc.symm)
                    simp [List.find?, hcond, hkt]

theorem findPathsGo_toFinset (m : Val → Option Val) : ∀ (l : List Edge)
    (acc ps : Finset (Val × Val × Val)),
    findPathsGo m l acc = some ps →
    ps = acc ∪ (l.filterMap (pathTriple m)).toFinset := by
  intro l
  induction l with
  | nil =>
      intro acc ps h
      simp only [findPathsGo, Option.some.injEq] at h
      subst h
      simp
  | cons e rest ih =>
      intro acc ps h
      simp only [findPathsGo] at h
      cases hs : e.source with
      | none => rw [hs] at h; simp at h
      | some s =>
          rw [hs] at h
          simp only [Option.bind_eq_bind, Option.some_bind] at h
          cases hms : m s with
          | none =>
              rw [hms] at h
              simp only [] at h
              have hrec := ih acc ps h
              have hpt : pathTriple m e = none := by
                simp [pathTriple, hs, hms]
              rw [hrec]
              simp [List.filterMap_cons, hpt]
          | some s1 =>
              rw [hms] at h
              simp only [] at h
              cases ht : e.target with
              | none => rw [ht] at h; simp at h
              | some t =>
                  rw [ht] at h
                  simp only [Option.bind_eq_bind, Option.some_bind] at h
                  have hrec := ih (insert (s1, s, t) acc) ps h
                  have hpt : pathTriple m e = some (s1, s, t) := by
                    simp [pathTriple, hs, hms, ht]
                  rw [hrec]
                  simp only [List.filterMap_cons, hpt, List.toFinset_cons]
                  ext y
                  simp only [Finset.mem_union, Finset.mem_insert]
                  tauto

/-- Claim C5: `find_paths` builds a target-to-source lookup from `edgeList1`
in which the last edge with a given target wins, and returns exactly the set
of triples (mapped source, source, target) of the `edgeList2` edges whose
source is a key of that lookup; being a set, it contains no duplicates. -/
theorem find_paths_spec (l1 l2 : List Edge) (m : Val → Option Val)
    (ps : Finset (Val × Val × Val))
    (hm : buildTargetToSource l1 (fun _ => none) = some m)
    (hp : find_paths l1 l2 = some ps) :
    (∀ k : Val, m k =
      ((l1.reverse.find? (fun e => e.target == some k)).map Edge.source).getD none) ∧
    ps = (l2.filterMap (pathTriple m)).toFinset := by
  constructor
  · exact buildTS_lookup l1 _ m hm
  · unfold find_paths at hp
    rw [hm] at hp
    simp only [Option.bind_eq_bind, Option.some_bind] at hp
    have := findPathsGo_toFinset m l2 ∅ ps hp
    simpa using this

/-- Witness for `find_paths_spec`: duplicate-producing inputs collapse to a
single triple. -/
theorem find_paths_spec_witness :
    ({(Val.i 1, Val.i 2, Val.i 3)} : Finset (Val × Val × Val)) =
      (fpL2.filterMap (pathTriple fpMap)).toFinset :=
  (find_paths_spec exL1 fpL2 fpMap {(Val.i 1, Val.i 2, Val.i 3)} rfl (by decide)).2

theorem invert_total : ∀ L : List Edge,
    (∀ e ∈ L, e.source.isSome ∧ e.target.isSome) → (invert L).isSome := by
  intro L
  induction L with
  | nil => intro _; simp [invert]
  | cons e rest ih =>
      intro h
      obtain ⟨hs, ht⟩ := h e (List.mem_cons_self _ _)
      rcases Option.isSome_iff_exists.mp hs with ⟨s, hs'⟩
      rcases Option.isSome_iff_exists.mp ht with ⟨t, ht'⟩
      rcases Option.isSome_iff_exists.mp
        (ih (fun x hx => h x (List.mem_cons_of_mem _ hx))) with ⟨r, hr⟩
      simp [invert, hs', ht', hr]

theorem buildTS_total : ∀ (L : List Edge) (m0 : Val → Option Val),
    (∀ e ∈ L, e.source.isSome ∧ e.target.isSome) →
    (buildTargetToSource L m0).isSome := by
  intro L
  induction L with
  | nil => intro m0 _; simp [buildTargetToSource]
  | cons e rest ih =>
      intro m0 h
      obtain ⟨hs, ht⟩ := h e (List.mem_cons_self _ _)
      rcases Option.isSome_iff_exists.mp hs with ⟨s, hs'⟩
      rcases Option.isSome_iff_exists.mp ht with ⟨t, ht'⟩
      have := ih (fun k => if k = t then some s else m0 k)
        (fun x hx => h x (List.mem_cons_of_mem _ hx))
      simpa [buildTargetToSource, hs', ht'] using this

theorem findPathsGo_total (m : Val → Option Val) : ∀ (L : List Edge)
    (acc : Finset (Val × Val × Val)),
    (∀ e ∈ L, e.source.isSome ∧ e.target.isSome) →
    (findPathsGo m L acc).isSome := by
  intro L
  induction L with
  | nil => intro acc _; simp [findPathsGo]
  | cons e rest ih =>
      intro acc h
      obtain ⟨hs, ht⟩ := h e (List.mem_cons_self _ _)
      rcases Option.isSome_iff_exists.mp hs with ⟨s, hs'⟩
      rcases Option.isSome_iff_exists.mp ht with ⟨t, ht'⟩
      have hrest := fun acc2 => ih acc2 (fun x hx => h x (List.mem_cons_of_mem _ hx))
      cases hms : m s with
      | none => simpa [findPathsGo, hs', hms] using hrest acc
      | some s1 => simpa [findPathsGo, hs', ht', hms] using hrest (insert (s1, s, t) acc)

theorem buildMapping_total : ∀ (L : List Edge) (m0 : Val → Option MapEntry),
    (∀ e ∈ L, e.source.isSome ∧ e.target.isSome) → (buildMapping L m0).isSome := by
  intro L
  induction L with
  | nil => intro m0 _; simp [buildMapping]
  | cons e rest ih =>
      intro m0 h
      obtain ⟨hs, ht⟩ := h e (List.mem_cons_self _ _)
      rcases Option.isSome_iff_exists.mp hs with ⟨s, hs'⟩
      rcases Option.isSome_iff_exists.mp ht with ⟨t, ht'⟩
      have := ih (fun k => if k = s then some ⟨t, e.label.getD "edge1", getWeight e⟩ else m0 k)
        (fun x hx => h x (List.mem_cons_of_mem _ hx))
      simpa [buildMapping, hs', ht'] using this

theorem composeGo_total (mapping : Val → Option MapEntry) (nl : Option String) :
    ∀ (L : List Edge) (res : List (RKey × Edge)),
    (∀ e ∈ L, e.source.isSome ∧ e.target.isSome) →
    (composeGo mapping nl L res).isSome := by
  intro L
  induction L with
  | nil => intro res _; simp [composeGo]
  | cons e rest ih =>
      intro res h
      obtain ⟨hs, ht⟩ := h e (List.mem_cons_self _ _)
      rcases Option.isSome_iff_exists.mp hs with ⟨s, hs'⟩
      rcases Option.isSome_iff_exists.mp ht with ⟨t, ht'⟩
      have hrest := fun res2 => ih res2 (fun x hx => h x (List.mem_cons_of_mem _ hx))
      cases hm : mapping t with
      | none => simpa [composeGo, hs', ht', hm] using hrest res
      | some m =>
          by_cases hk : res.any (fun p => p.1 == (s, m.target)) = true
          · simpa [composeGo, hs', ht', hm, hk] using
              hrest (bumpWeight res (s, m.target) (m.weight * getWeight e))
          · simpa [composeGo, hs', ht', hm, hk] using
              hrest (res ++ [((s, m.target),
                { source := some s
                  target := some m.target
                  label := some (pyOrStr nl ((e.label.getD "edge2") ++ "-" ++ m.label))
                  labels := none
                  properties := some ⟨some (m.weight * getWeight e)⟩ })])

/-- Claim C10: `invert`, `find_paths` and `compose` are total on well-keyed
edge lists: when every input edge dictionary has both `source` and `target`
keys, each operation returns normally (no lookup error), since every other
field is read with a default. -/
theorem total_on_wellkeyed (l1 l2 : List Edge) (nl : Option String)
    (h1 : ∀ e ∈ l1, e.source.isSome ∧ e.target.isSome)
    (h2 : ∀ e ∈ l2, e.source.isSome ∧ e.target.isSome) :
    (invert l1).isSome ∧ (find_paths l1 l2).isSome ∧ (compose l1 l2 nl).isSome := by
  refine ⟨invert_total l1 h1, ?_, ?_⟩
  · rcases Option.isSome_iff_exists.mp (buildTS_total l1 (fun _ => none) h1)
      with ⟨m, hm⟩
    have hgo := findPathsGo_total m l2 ∅ h2
    rcases Option.isSome_iff_exists.mp hgo with ⟨ps, hps⟩
    simp [find_paths, hm, hps]
  · rcases Option.isSome_iff_exists.mp (buildMapping_total l2 (fun _ => none) h2)
      with ⟨mapping, hmp⟩
    have hgo := composeGo_total mapping nl l1 [] h1
    rcases Option.isSome_iff_exists.mp hgo with ⟨res, hres⟩
    simp [compose, hmp, hres]

/-- Witness for `total_on_wellkeyed` at the specification's example lists. -/
theorem total_on_wellkeyed_witness :
    (invert exL1).isSome ∧ (find_paths exL1 exL2).isSome ∧
      (compose exL1 exL2 none).isSome :=
  total_on_wellkeyed exL1 exL2 none (by decide) (by decide)

theorem edgesWithLabelsGo_none (nodes : List (Val × NodeData)) (lab : String) :
    ∀ (L : List Edge) (e : Edge), e ∈ L → edgeLabelCond nodes lab e = none →
    edgesWithLabelsGo nodes lab L = none := by
  intro L
  induction L with
  | nil => intro e he; simp at he
  | cons x rest ih =>
      intro e he hc
      rcases List.mem_cons.mp he with rfl | he'
      · simp [edgesWithLabelsGo, hc]
      · cases hx : edgeLabelCond nodes lab x with
        | none => simp [edgesWithLabelsGo, hx]
        | some b =>
            have hrec := ih e he' hc
            simp [edgesWithLabelsGo, hx, hrec]

/-- Claim C8, counterexample: `get_edge_node_labels` reads absent nodes with
a `{}` default (`nodes.get(..., {})`), so an edge whose endpoints are absent
from the node map yields the empty label product, not a lookup error. -/
theorem get_edge_node_labels_cex :
    dictGet [] (Val.i 1) = none ∧
    get_edge_node_labels ⟨some (Val.i 1), some (Val.i 2), none, none, none⟩ [] =
      some [] :=
  ⟨by decide, by decide⟩

/-- Claim C8 (amended): `get_edges_with_labels` fails with a lookup error
when an edge's source id is absent from the node map, and also when its
target id is absent while the label is among the source node's labels;
`get_edge_node_labels`, by contrast, never fails on node ids absent from the
node map: it treats a missing node as having no labels. -/
theorem label_ops_missing_node (nodes : List (Val × NodeData)) (lab : String)
    (L : List Edge) (e : Edge) (he : e ∈ L) :
    (∀ s, e.source = some s → dictGet nodes s = none →
      get_edges_with_labels nodes L lab = none) ∧
    (∀ s n1 t, e.source = some s → dictGet nodes s = some n1 →
      lab ∈ n1.labels.getD [] → e.target = some t → dictGet nodes t = none →
      get_edges_with_labels nodes L lab = none) ∧
    (∀ (nodes2 : List (Val × NodeData)) (s t : Val), e.source = some s →
      e.target = some t → (get_edge_node_labels e nodes2).isSome) := by
  refine ⟨?_, ?_, ?_⟩
  · intro s hs hd
    have hcond : edgeLabelCond nodes lab e = none := by
      unfold edgeLabelCond
      rw [hs]
      simp only [Option.bind_eq_bind, Option.some_bind]
      rw [hd]
      rfl
    exact edgesWithLabelsGo_none nodes lab L e he hcond
  · intro s n1 t hs hd1 hmem ht hd2
    have hcond : edgeLabelCond nodes lab e = none := by
      unfold edgeLabelCond
      rw [hs]
      simp only [Option.bind_eq_bind, Option.some_bind]
      rw [hd1]
      simp only [Option.bind_eq_bind, Option.some_bind]
      rw [if_pos hmem, ht]
      simp only [Option.bind_eq_bind, Option.some_bind]
      rw [hd2]
      rfl
    exact edgesWithLabelsGo_none nodes lab L e he hcond
  · intro nodes2 s t hs ht
    unfold get_edge_node_labels
    rw [hs]
    simp only [Option.bind_eq_bind, Option.some_bind]
    rw [ht]
    simp

/-- Witness for `label_ops_missing_node` on a concrete edge and the empty
node map. -/
theorem label_ops_missing_node_witness :
    get_edges_with_labels []
      [⟨some (Val.i 1), some (Val.i 2), none, none, none⟩] "L" = none ∧
    (get_edge_node_labels
      ⟨some (Val.i 1), some (Val.i 2), none, none, none⟩ []).isSome :=
  ⟨(label_ops_missing_node [] "L"
      [⟨some (Val.i 1), some (Val.i 2), none, none, none⟩]
      ⟨some (Val.i 1), some (Val.i 2), none, none, none⟩ (by decide)).1
      (Val.i 1) (by decide) (by decide),
    (label_ops_missing_node [] "L"
      [⟨some (Val.i 1), some (Val.i 2), none, none, none⟩]
      ⟨some (Val.i 1), some (Val.i 2), none, none, none⟩ (by decide)).2.2
      [] (Val.i 1) (Val.i 2) (by decide) (by decide)⟩

/-- Claim C9, counterexample: even with an empty `labels` argument, an entry
without a `labels` key makes `filter_objects_by_labels` raise a lookup error:
the read `object['labels']` happens before the empty list is consulted. -/
theorem filter_objects_empty_cex :
    filter_objects_by_labels [(Val.s "k", ⟨none, none⟩)] [] = none := by decide

/-- Claim C9 (amended): over an empty `labels` list,
`filter_objects_by_labels` returns the empty mapping for every input in which
each entry has a `labels` key (an entry without one raises a lookup error
instead of being skipped). -/
theorem filter_objects_empty (data : List (Val × NodeData))
    (h : ∀ p ∈ data, p.2.labels.isSome) :
    filter_objects_by_labels data [] = some [] := by
  induction data with
  | nil => rfl
  | cons q rest ih =>
      obtain ⟨k, obj⟩ := q
      rcases Option.isSome_iff_exists.mp
        (h (k, obj) (List.mem_cons_self _ _)) with ⟨ls, hls⟩
      have hls' : obj.labels = some ls := hls
      have hr := ih (fun p hp => h p (List.mem_cons_of_mem _ hp))
      simp [filter_objects_by_labels, hls', hr]

/-- Witness for `filter_objects_empty` on a one-entry map with labels. -/
theorem filter_objects_empty_witness :
    filter_objects_by_labels [(Val.s "k", ⟨none, some ["A"]⟩)] [] = some [] :=
  filter_objects_empty [(Val.s "k", ⟨none, some ["A"]⟩)] (by decide)

theorem groupInsert_keys (m : List (String × List Edge)) (l : String) (e : Edge) :
    (groupInsert m l e).map Prod.fst =
      if m.any (fun p => p.1 == l) = true then m.map Prod.fst
      else m.map Prod.fst ++ [l] := by
  unfold groupInsert
  by_cases h : m.any (fun p => p.1 == l) = true
  · rw [if_pos h, if_pos h, List.map_map]
    apply List.map_congr_left
    intro p _
    by_cases hp : p.1 = l
    · simp [hp, Function.comp]
    · simp [hp, Function.comp]
  · rw [if_neg h, if_neg h]
    simp

theorem groupInsert_mem (m : List (String × List Edge)) (l : String) (e : Edge) :
    ∀ p ∈ groupInsert m l e,
      (p ∈ m ∧ p.1 ≠ l) ∨ (∃ es, p = (l, es ++ [e]) ∧ (l, es) ∈ m) ∨
      (p = (l, [e]) ∧ m.any (fun q => q.1 == l) = false) := by
  intro p hp
  unfold groupInsert at hp
  by_cases h : m.any (fun q => q.1 == l) = true
  · rw [if_pos h] at hp
    rcases List.mem_map.mp hp with ⟨q, hq, hfq⟩
    by_cases hql : q.1 = l
    · refine Or.inr (Or.inl ⟨q.2, ?_, ?_⟩)
      · rw [← hfq]
        simp [hql]
      · rw [← hql]
        exact hq
    · left
      constructor
      · rw [← hfq]
        simpa [hql] using hq
      · rw [← hfq]
        simp [hql]
  · rw [if_neg h] at hp
    rcases List.mem_append.mp hp with hq | hq
    · refine Or.inl ⟨hq, ?_⟩
      intro hpl
      exact h (List.any_eq_true.mpr ⟨p, hq, beq_iff_eq.mpr hpl⟩)
    · refine Or.inr (Or.inr ⟨List.mem_singleton.mp hq, ?_⟩)
      cases hb : m.any (fun q => q.1 == l) with
      | true => exact absurd hb h
      | false => rfl

theorem transformStep_ok (acc : List (String × List Edge)) (post0 : List Edge)
    (l : String) (e' : Edge) (hl : e'.label = some l)
    (hinv1 : ∀ p ∈ acc, p.2 = post0.filter (fun e => e.label == some p.1))
    (hinv2 : ∀ e ∈ post0, ∃ l2, e.label = some l2 ∧ l2 ∈ acc.map Prod.fst) :
    (∀ p ∈ groupInsert acc l e',
      p.2 = (post0 ++ [e']).filter (fun e => e.label == some p.1)) ∧
    (∀ e ∈ post0 ++ [e'], ∃ l2, e.label = some l2 ∧
      l2 ∈ (groupInsert acc l e').map Prod.fst) := by
  constructor
  · intro p hp
    rcases groupInsert_mem acc l e' p hp with ⟨hpm, hpne⟩ | ⟨es, rfl, hes⟩ | ⟨rfl, hnone⟩
    · rw [List.filter_append, ← hinv1 p hpm]
      have hcond : (e'.label == some p.1) = false := by
        simp only [hl, beq_iff_eq, Option.some.injEq]
        exact decide_eq_false (fun hc => hpne hc.symm)
      simp [List.filter, hcond]
    · rw [List.filter_append]
      have h1 := hinv1 (l, es) hes
      have hcond : (e'.label == some l) = true := by simp [hl]
      simp only at h1
      simp [List.filter, hcond, ← h1]
    · rw [List.filter_append]
      have hkeys : l ∉ acc.map Prod.fst := by
        intro hmem
        rcases List.mem_map.mp hmem with ⟨q, hq, hql⟩
        have : acc.any (fun q => q.1 == l) = true :=
          List.any_eq_true.mpr ⟨q, hq, beq_iff_eq.mpr hql⟩
        rw [hnone] at this
        exact Bool.noConfusion this
      have hpost : post0.filter (fun e => e.label == some l) = [] := by
        rw [List.filter_eq_nil_iff]
        intro e he
        rcases hinv2 e he with ⟨l2, hl2, hl2mem⟩
        simp only [hl2, beq_iff_eq, Option.some.injEq]
        intro hll
        exact hkeys (hll ▸ hl2mem)
      have hcond : (e'.label == some l) = true := by simp [hl]
      simp [List.filter, hcond, hpost]
  · intro e he
    have hsub : ∀ l2, l2 ∈ acc.map Prod.fst →
        l2 ∈ (groupInsert acc l e').map Prod.fst := by
      intro l2 hmem
      rw [groupInsert_keys]
      by_cases h : acc.any (fun p => p.1 == l) = true
      · rw [if_pos h]; exact hmem
      · rw [if_neg h]; exact List.mem_append.mpr (Or.inl hmem)
    rcases List.mem_append.mp he with he0 | he1
    · rcases hinv2 e he0 with ⟨l2, h1, h2⟩
      exact ⟨l2, h1, hsub l2 h2⟩
    · obtain rfl := List.mem_singleton.mp he1
      refine ⟨l, hl, ?_⟩
      rw [groupInsert_keys]
      by_cases h : acc.any (fun p => p.1 == l) = true
      · rw [if_pos h]
        rcases List.any_eq_true.mp h with ⟨q, hq, hql⟩
        rw [beq_iff_eq] at hql
        exact hql ▸ List.mem_map_of_mem _ hq
      · rw [if_neg h]
        exact List.mem_append.mpr (Or.inr (List.mem_singleton.mpr rfl))

theorem transformEdges_ok : ∀ (rest : List EdgeWrap)
    (acc : List (String × List Edge)) (post0 : List Edge)
    (accF : List (String × List Edge)) (postF : List Edge),
    (∀ p ∈ acc, p.2 = post0.filter (fun e => e.label == some p.1)) →
    (∀ e ∈ post0, ∃ l, e.label = some l ∧ l ∈ acc.map Prod.fst) →
    transformEdges rest acc post0 = some (accF, postF) →
    (∃ nr, List.Forall₂ (fun (w : EdgeWrap) (e' : Edge) => normEdge w.data = some e')
        rest nr ∧ postF = post0 ++ nr) ∧
    (∀ p ∈ accF, p.2 = postF.filter (fun e => e.label == some p.1)) ∧
    (∀ e ∈ postF, ∃ l, e.label = some l ∧ l ∈ accF.map Prod.fst) := by
  intro rest
  induction rest with
  | nil =>
      intro acc post0 accF postF hinv1 hinv2 hc
      simp only [transformEdges, Option.some.injEq, Prod.mk.injEq] at hc
      obtain ⟨rfl, rfl⟩ := hc
      exact ⟨⟨[], List.Forall₂.nil, by simp⟩, hinv1, hinv2⟩
  | cons w rest' ih =>
      intro acc post0 accF postF hinv1 hinv2 hc
      obtain ⟨⟨esrc, etgt, elb, elbls, eprops⟩⟩ := w
      simp only [transformEdges] at hc
      cases elb with
      | some l =>
          have hc' : transformEdges rest'
              (groupInsert acc l ⟨esrc, etgt, some l, elbls, eprops⟩)
              (post0 ++ [⟨esrc, etgt, some l, elbls, eprops⟩]) =
              some (accF, postF) := hc
          obtain ⟨hinv1', hinv2'⟩ :=
            transformStep_ok acc post0 l ⟨esrc, etgt, some l, elbls, eprops⟩ rfl
              hinv1 hinv2
          obtain ⟨⟨nr, hf2, hpostF⟩, hc2, hc3⟩ :=
            ih _ _ accF postF hinv1' hinv2' hc'
          refine ⟨⟨(⟨esrc, etgt, some l, elbls, eprops⟩ : Edge) :: nr, ?_, ?_⟩,
            hc2, hc3⟩
          · exact List.Forall₂.cons (by simp [normEdge]) hf2
          · rw [hpostF]
            simp
      | none =>
          cases elbls with
          | none => simp at hc
          | some ls =>
              have hc' : transformEdges rest'
                  (groupInsert acc (String.intercalate "," ls)
                    ⟨esrc, etgt, some (String.intercalate "," ls), some ls, eprops⟩)
                  (post0 ++
                    [⟨esrc, etgt, some (String.intercalate "," ls), some ls, eprops⟩]) =
                  some (accF, postF) := hc
              obtain ⟨hinv1', hinv2'⟩ :=
                transformStep_ok acc post0 (String.intercalate "," ls)
                  ⟨esrc, etgt, some (String.intercalate "," ls), some ls, eprops⟩ rfl
                  hinv1 hinv2
              obtain ⟨⟨nr, hf2, hpostF⟩, hc2, hc3⟩ :=
                ih _ _ accF postF hinv1' hinv2' hc'
              refine ⟨⟨(⟨esrc, etgt, some (String.intercalate "," ls), some ls,
                eprops⟩ : Edge) :: nr, ?_, ?_⟩, hc2, hc3⟩
              · exact List.Forall₂.cons (by simp [normEdge]) hf2
              · rw [hpostF]
                simp

/-- Claim C7: for every successful `transform_graph` run, each input edge
lacking a `label` key has the comma-join of its `labels` written into it (the
post-state list records this in-place mutation), the returned edges mapping
groups exactly those (possibly relabelled) edge objects by label preserving
input order within each group, and every returned edge's label is a key of
the mapping. -/
theorem transform_graph_spec (g : GraphDoc) (nodes : List (Val × NodeData))
    (edges : List (String × List Edge)) (post : List Edge)
    (ht : transform_graph g = some (nodes, edges, post)) :
    List.Forall₂ (fun (w : EdgeWrap) (e' : Edge) => normEdge w.data = some e')
      g.elements.edges post ∧
    (∀ p ∈ edges, p.2 = post.filter (fun e => e.label == some p.1)) ∧
    (∀ e ∈ post, ∃ l, e.label = some l ∧ l ∈ edges.map Prod.fst) := by
  unfold transform_graph at ht
  cases hn : buildNodesMap g.elements.nodes [] with
  | none => rw [hn] at ht; simp at ht
  | some nm =>
      rw [hn] at ht
      simp only [Option.bind_eq_bind, Option.some_bind] at ht
      cases hte : transformEdges g.elements.edges [] [] with
      | none => rw [hte] at ht; simp at ht
      | some pr =>
          rw [hte] at ht
          obtain ⟨pr1, pr2⟩ := pr
          simp only [Option.bind_eq_bind, Option.some_bind, Option.pure_def,
            Option.some.injEq, Prod.mk.injEq] at ht
          obtain ⟨rfl, rfl, rfl⟩ := ht
          obtain ⟨⟨nr, hf2, hpost⟩, hc2, hc3⟩ :=
            transformEdges_ok g.elements.edges [] [] pr1 pr2
              (by simp) (by simp) hte
          refine ⟨?_, hc2, hc3⟩
          rw [hpost]
          simpa using hf2

/-- Witness for `transform_graph_spec` at the specification's
`transform_graph` example, together with the example's full output. -/
theorem transform_graph_spec_witness :
    transform_graph exGDoc =
      some ([(Val.s "a", ⟨some (Val.s "a"), none⟩)], [("x,y", [exGEdge])],
        [exGEdge]) ∧
    List.Forall₂ (fun (w : EdgeWrap) (e' : Edge) => normEdge w.data = some e')
      exGDoc.elements.edges [exGEdge] :=
  ⟨by decide,
    (transform_graph_spec exGDoc [(Val.s "a", ⟨some (Val.s "a"), none⟩)]
      [("x,y", [exGEdge])] [exGEdge] (by decide)).1⟩

end GraphUtil
